import Mathlib

/-!
Verification of the parametric-curve evaluation core of the repository
(`src/math.js`, module `CurveMath`).  All JavaScript numbers are modelled
as rationals, and every function is translated clause by clause from the
source: the De Casteljau `while` loop becomes a fuel-indexed recursion
whose fuel is the initial list length (the loop removes one point per
iteration, so that fuel is always sufficient), the Cox-de Boor recursion
is structural in its order argument `k`, and the accumulation loop of
`bSplinePoint` becomes three index sums.  Functions that can return JS
`null` return `Option` values.
-/

/-- Control point record `{x, y, weight}` used throughout `math.js`.
The same shape is used for the homogeneous intermediate points of the
De Casteljau reduction. -/
structure Point where
  x : ℚ
  y : ℚ
  weight : ℚ
deriving Repr, DecidableEq, Inhabited

/-- One pass of the inner `for` loop of `deCasteljauBezier` (lines 29-39):
replaces `k` points by the `k-1` pairwise linear interpolations of
consecutive points, acting componentwise on `x`, `y` and `weight`. -/
def lerpStep (t : ℚ) : List Point → List Point
  | p :: q :: rest =>
      { x := p.x * (1 - t) + q.x * t
        y := p.y * (1 - t) + q.y * t
        weight := p.weight * (1 - t) + q.weight * t } :: lerpStep t (q :: rest)
  | _ => []

/-- The `while (points.length > 1)` loop of `deCasteljauBezier`
(lines 28-41), with explicit fuel.  Each iteration shortens the list by
one, so fuel equal to the initial length always suffices; the loop stops
as soon as fewer than two points remain, exactly like the source. -/
def reduceAux (t : ℚ) : ℕ → List Point → List Point
  | fuel + 1, p :: q :: rest => reduceAux t fuel (lerpStep t (p :: q :: rest))
  | _, l => l

/-- Model of `CurveMath.deCasteljauBezier(controlPoints, t)` (lines 13-53):
empty input gives `null`; a single point is returned unchanged; otherwise
the points are lifted to homogeneous form `(x*w, y*w, w)`, reduced by
repeated linear interpolation, and the single remaining point is divided
by its weight unless that weight is zero, in which case the raw
coordinates are returned. -/
def deCasteljauBezier (controlPoints : List Point) (t : ℚ) : Option (ℚ × ℚ) :=
  if controlPoints.length = 0 then none
  else if controlPoints.length = 1 then
    some ((controlPoints.getD 0 default).x, (controlPoints.getD 0 default).y)
  else
    let pts := controlPoints.map fun p =>
      { x := p.x * p.weight, y := p.y * p.weight, weight := p.weight : Point }
    let fin := (reduceAux t pts.length pts).headI
    if fin.weight ≠ 0 then some (fin.x / fin.weight, fin.y / fin.weight)
    else some (fin.x, fin.y)

/-- Model of `CurveMath.generateBezierCurve(controlPoints, steps)` (lines 61-71):
fewer than two control points give the empty curve; otherwise the points
`t = i / steps` for `i = 0 .. steps` are evaluated and every non-`null`
result is pushed (`filterMap`). -/
def generateBezierCurve (controlPoints : List Point) (steps : ℕ) : List (ℚ × ℚ) :=
  if controlPoints.length < 2 then []
  else
    (List.range (steps + 1)).filterMap fun i : ℕ =>
      deCasteljauBezier controlPoints ((i : ℚ) / (steps : ℚ))

/-- Model of `CurveMath.basisFunction(i, k, t, knots)` (lines 81-101), the Cox-de
Boor recursion with order `k = degree + 1`.  Base case `k = 1` is the
half-open indicator `knots[i] <= t < knots[i+1]`; each recursive term is
skipped when its knot denominator vanishes.  Out-of-range knot reads use
default `0` (never reached for the index ranges the callers use); the
value at `k = 0` is `0`, an arbitrary artifact of totalisation (the
source never calls the function with `k = 0`). -/
def basisFunction (i k : ℕ) (t : ℚ) (knots : List ℚ) : ℚ :=
  match k with
  | 0 => 0
  | 1 => if knots.getD i 0 ≤ t ∧ t < knots.getD (i + 1) 0 then 1 else 0
  | k' + 2 =>
    let left :=
      if knots.getD (i + k' + 1) 0 ≠ knots.getD i 0 then
        ((t - knots.getD i 0) / (knots.getD (i + k' + 1) 0 - knots.getD i 0)) *
          basisFunction i (k' + 1) t knots
      else 0
    let right :=
      if knots.getD (i + k' + 2) 0 ≠ knots.getD (i + 1) 0 then
        ((knots.getD (i + k' + 2) 0 - t) /
            (knots.getD (i + k' + 2) 0 - knots.getD (i + 1) 0)) *
          basisFunction (i + 1) (k' + 1) t knots
      else 0
    left + right

/-- Model of `CurveMath.generateUniformKnots(n, degree)` (lines 109-130):
`degree + 1` zeros, then `i / (n - degree)` for `i = 1 .. n - degree - 1`,
then `degree + 1` ones. -/
def generateUniformKnots (n degree : ℕ) : List ℚ :=
  List.replicate (degree + 1) 0 ++
    (List.range (n - degree - 1)).map
      (fun i : ℕ => ((i + 1 : ℕ) : ℚ) / ((n - degree : ℕ) : ℚ)) ++
    List.replicate (degree + 1) 1

/-- The `controlPoints[i].weight || 1` fallback of `bSplinePoint`
(line 160): a zero (falsy) weight is replaced by `1`. -/
def effectiveWeight (p : Point) : ℚ :=
  if p.weight = 0 then 1 else p.weight

/-- Model of `CurveMath.bSplinePoint(controlPoints, t, degree, knots)`
(lines 140-174): `null` for an empty sequence or fewer than `degree + 1`
points; otherwise the knot vector is generated when absent, `t` is
clamped into `[knots[degree], knots[n]]`, and the loop accumulates
`x`, `y` and the weight sum (rendered as index sums, the loop body only
adds).  The result is the normalized quotient unless the weight sum is
zero, in which case the raw sums are returned. -/
def bSplinePoint (controlPoints : List Point) (t : ℚ) (degree : ℕ)
    (knotsOpt : Option (List ℚ)) : Option (ℚ × ℚ) :=
  if controlPoints.length = 0 then none
  else
    let n := controlPoints.length
    if n < degree + 1 then none
    else
      let knots := knotsOpt.getD (generateUniformKnots n degree)
      let tc := max (knots.getD degree 0) (min (knots.getD n 0) t)
      let term : ℕ → ℚ := fun i =>
        basisFunction i (degree + 1) tc knots *
          effectiveWeight (controlPoints.getD i default)
      let x := ∑ i ∈ Finset.range n, (controlPoints.getD i default).x * term i
      let y := ∑ i ∈ Finset.range n, (controlPoints.getD i default).y * term i
      let weightSum := ∑ i ∈ Finset.range n, term i
      if weightSum ≠ 0 then some (x / weightSum, y / weightSum)
      else some (x, y)

/-- Model of `CurveMath.generateBSplineCurve(controlPoints, degree, steps, knots)`
(lines 184-202): empty when there are fewer than `degree + 1` points;
otherwise samples `t = range0 + (i / steps) * (range1 - range0)` for
`i = 0 .. steps` over the valid knot domain and pushes every non-`null`
evaluation. -/
def generateBSplineCurve (controlPoints : List Point) (degree steps : ℕ)
    (knotsOpt : Option (List ℚ)) : List (ℚ × ℚ) :=
  if controlPoints.length < degree + 1 then []
  else
    let n := controlPoints.length
    let knots := knotsOpt.getD (generateUniformKnots n degree)
    let v0 := knots.getD degree 0
    let v1 := knots.getD n 0
    (List.range (steps + 1)).filterMap fun i : ℕ =>
      bSplinePoint controlPoints (v0 + ((i : ℚ) / (steps : ℚ)) * (v1 - v0))
        degree (some knots)

/-!
Index-level description of the generated knot vector.  `knotFun n degree j`
is the value the source stores at index `j` of
`generateUniformKnots(n, degree)` (with the out-of-range default `0` of
`List.getD` beyond index `n + degree`); the bridge lemma below proves the
two presentations equal.
-/

/-- Closed form of the entries of `generateUniformKnots n degree`. -/
def knotFun (n degree j : ℕ) : ℚ :=
  if j ≤ degree then 0
  else if j < n then ((j - degree : ℕ) : ℚ) / ((n - degree : ℕ) : ℚ)
  else if j ≤ n + degree then 1
  else 0

theorem length_generateUniformKnots (n degree : ℕ) (hn : degree + 1 ≤ n) :
    (generateUniformKnots n degree).length = n + degree + 1 := by
  unfold generateUniformKnots
  rw [List.length_append, List.length_append, List.length_replicate,
    List.length_replicate, List.length_map, List.length_range]
  omega

theorem getD_generateUniformKnots (n degree : ℕ) (hn : degree + 1 ≤ n) (j : ℕ) :
    (generateUniformKnots n degree).getD j 0 = knotFun n degree j := by
  have hlen := length_generateUniformKnots n degree hn
  rcases le_or_lt (n + degree + 1) j with hout | hin
  · rw [List.getD_eq_default _ _ (by omega)]
    simp only [knotFun]
    rw [if_neg (by omega : ¬ j ≤ degree), if_neg (by omega : ¬ j < n),
      if_neg (by omega : ¬ j ≤ n + degree)]
  · rw [List.getD_eq_getElem _ _ (by omega)]
    unfold generateUniformKnots
    have lenA : (List.replicate (degree + 1) (0 : ℚ)).length = degree + 1 :=
      List.length_replicate _ _
    have lenB : ((List.range (n - degree - 1)).map
        (fun i : ℕ => ((i + 1 : ℕ) : ℚ) / ((n - degree : ℕ) : ℚ))).length = n - degree - 1 := by
      rw [List.length_map, List.length_range]
    have lenAB : (List.replicate (degree + 1) (0 : ℚ) ++
        (List.range (n - degree - 1)).map
          (fun i : ℕ => ((i + 1 : ℕ) : ℚ) / ((n - degree : ℕ) : ℚ))).length = n := by
      rw [List.length_append, lenA, lenB]; omega
    rcases le_or_lt j degree with h1 | h1
    · rw [List.getElem_append_left (by omega : j < (List.replicate (degree + 1) (0 : ℚ) ++
          (List.range (n - degree - 1)).map
            (fun i : ℕ => ((i + 1 : ℕ) : ℚ) / ((n - degree : ℕ) : ℚ))).length),
        List.getElem_append_left (by omega : j < (List.replicate (degree + 1) (0 : ℚ)).length),
        List.getElem_replicate]
      simp only [knotFun]
      rw [if_pos h1]
    · rcases lt_or_le j n with h2 | h2
      · rw [List.getElem_append_left (by omega : j < (List.replicate (degree + 1) (0 : ℚ) ++
            (List.range (n - degree - 1)).map
              (fun i : ℕ => ((i + 1 : ℕ) : ℚ) / ((n - degree : ℕ) : ℚ))).length),
          List.getElem_append_right (by omega : (List.replicate (degree + 1) (0 : ℚ)).length ≤ j),
          List.getElem_map, List.getElem_range]
        simp only [knotFun, lenA]
        rw [if_neg (by omega : ¬ j ≤ degree), if_pos h2]
        have h3 : (j - (degree + 1) : ℕ) + 1 = (j - degree : ℕ) := by omega
        rw [h3]
      · rw [List.getElem_append_right (by omega : (List.replicate (degree + 1) (0 : ℚ) ++
            (List.range (n - degree - 1)).map
              (fun i : ℕ => ((i + 1 : ℕ) : ℚ) / ((n - degree : ℕ) : ℚ))).length ≤ j),
          List.getElem_replicate]
        simp only [knotFun]
        rw [if_neg (by omega : ¬ j ≤ degree), if_neg (by omega : ¬ j < n),
          if_pos (by omega : j ≤ n + degree)]

theorem knotFun_of_le_degree (n degree j : ℕ) (hj : j ≤ degree) :
    knotFun n degree j = 0 := by
  simp [knotFun, hj]

theorem knotFun_interior (n degree j : ℕ) (h1 : degree < j) (h2 : j < n) :
    knotFun n degree j = ((j - degree : ℕ) : ℚ) / ((n - degree : ℕ) : ℚ) := by
  simp only [knotFun]
  rw [if_neg (by omega : ¬ j ≤ degree), if_pos h2]

theorem knotFun_of_ge (n degree j : ℕ) (hn : degree + 1 ≤ n) (hj1 : n ≤ j)
    (hj2 : j ≤ n + degree) : knotFun n degree j = 1 := by
  simp only [knotFun]
  rw [if_neg (by omega : ¬ j ≤ degree), if_neg (by omega : ¬ j < n), if_pos hj2]

theorem knotFun_nonneg (n degree j : ℕ) : 0 ≤ knotFun n degree j := by
  simp only [knotFun]
  split
  · exact le_refl 0
  · split
    · exact div_nonneg (Nat.cast_nonneg _) (Nat.cast_nonneg _)
    · split
      · exact zero_le_one
      · exact le_refl 0

theorem knotFun_le_one (n degree j : ℕ) (hn : degree + 1 ≤ n) :
    knotFun n degree j ≤ 1 := by
  have hden : (0 : ℚ) < ((n - degree : ℕ) : ℚ) := by
    exact_mod_cast (by omega : 0 < n - degree)
  simp only [knotFun]
  split
  · exact zero_le_one
  · split
    · next h1 h2 =>
      rw [div_le_one hden]
      exact_mod_cast (by omega : j - degree ≤ n - degree)
    · split
      · exact le_refl 1
      · exact zero_le_one

theorem knotFun_mono_step (n degree j : ℕ) (hn : degree + 1 ≤ n)
    (hj : j + 1 ≤ n + degree) :
    knotFun n degree j ≤ knotFun n degree (j + 1) := by
  have hden : (0 : ℚ) < ((n - degree : ℕ) : ℚ) := by
    exact_mod_cast (by omega : 0 < n - degree)
  rcases le_or_lt j degree with hA | hA
  · rw [knotFun_of_le_degree n degree j hA]
    exact knotFun_nonneg n degree (j + 1)
  · rcases lt_or_le j n with hB | hB
    · rw [knotFun_interior n degree j hA hB]
      rcases lt_or_le (j + 1) n with hC | hC
      · rw [knotFun_interior n degree (j + 1) (by omega) hC]
        exact div_le_div_of_nonneg_right
          (by exact_mod_cast (by omega : j - degree ≤ j + 1 - degree)) hden.le
      · rw [knotFun_of_ge n degree (j + 1) hn (by omega) hj]
        rw [div_le_one hden]
        exact_mod_cast (by omega : j - degree ≤ n - degree)
    · rw [knotFun_of_ge n degree j hn hB (by omega),
        knotFun_of_ge n degree (j + 1) hn (by omega) hj]

theorem knotFun_mono (n degree : ℕ) (hn : degree + 1 ≤ n) {a b : ℕ}
    (hab : a ≤ b) (hb : b ≤ n + degree) :
    knotFun n degree a ≤ knotFun n degree b := by
  induction b with
  | zero =>
    have : a = 0 := by omega
    subst this
    exact le_refl _
  | succ b ih =>
    rcases Nat.lt_or_ge a (b + 1) with h | h
    · exact le_trans (ih (by omega) (by omega)) (knotFun_mono_step n degree b hn hb)
    · have : a = b + 1 := by omega
      subst this
      exact le_refl _

/-!
Unfolding equations for `basisFunction`, and its restatement over the
generated knot vector in terms of `knotFun`.
-/

theorem basisFunction_one (i : ℕ) (t : ℚ) (knots : List ℚ) :
    basisFunction i 1 t knots =
      if knots.getD i 0 ≤ t ∧ t < knots.getD (i + 1) 0 then 1 else 0 := rfl

theorem basisFunction_succ_succ (i k : ℕ) (t : ℚ) (knots : List ℚ) :
    basisFunction i (k + 2) t knots =
      (if knots.getD (i + k + 1) 0 ≠ knots.getD i 0 then
        ((t - knots.getD i 0) / (knots.getD (i + k + 1) 0 - knots.getD i 0)) *
          basisFunction i (k + 1) t knots
      else 0) +
      (if knots.getD (i + k + 2) 0 ≠ knots.getD (i + 1) 0 then
        ((knots.getD (i + k + 2) 0 - t) /
            (knots.getD (i + k + 2) 0 - knots.getD (i + 1) 0)) *
          basisFunction (i + 1) (k + 1) t knots
      else 0) := rfl

theorem basisFunction_one_knot (n degree : ℕ) (hn : degree + 1 ≤ n) (i : ℕ) (t : ℚ) :
    basisFunction i 1 t (generateUniformKnots n degree) =
      if knotFun n degree i ≤ t ∧ t < knotFun n degree (i + 1) then 1 else 0 := by
  rw [basisFunction_one]
  simp only [getD_generateUniformKnots n degree hn]

theorem basisFunction_rec_knot (n degree : ℕ) (hn : degree + 1 ≤ n) (i k : ℕ) (t : ℚ) :
    basisFunction i (k + 2) t (generateUniformKnots n degree) =
      (if knotFun n degree (i + k + 1) ≠ knotFun n degree i then
        ((t - knotFun n degree i) /
            (knotFun n degree (i + k + 1) - knotFun n degree i)) *
          basisFunction i (k + 1) t (generateUniformKnots n degree)
      else 0) +
      (if knotFun n degree (i + k + 2) ≠ knotFun n degree (i + 1) then
        ((knotFun n degree (i + k + 2) - t) /
            (knotFun n degree (i + k + 2) - knotFun n degree (i + 1))) *
          basisFunction (i + 1) (k + 1) t (generateUniformKnots n degree)
      else 0) := by
  rw [basisFunction_succ_succ]
  simp only [getD_generateUniformKnots n degree hn]

/-- A basis function of order `k ≥ 1` vanishes outside the half-open span
`[knots[i], knots[i+k])` of the generated knot vector. -/
theorem basisFunction_support (n degree : ℕ) (hn : degree + 1 ≤ n) :
    ∀ k, 1 ≤ k → ∀ i (t : ℚ), i + k ≤ n + degree →
      (t < knotFun n degree i ∨ knotFun n degree (i + k) ≤ t) →
      basisFunction i k t (generateUniformKnots n degree) = 0 := by
  intro k
  induction k with
  | zero => intro h; exact absurd h (by omega)
  | succ k ih =>
    intro _ i t hik hout
    cases k with
    | zero =>
      rw [basisFunction_one_knot n degree hn, if_neg]
      rcases hout with h | h
      · intro hc; exact absurd hc.1 (not_le.mpr h)
      · intro hc; exact absurd hc.2 (not_lt.mpr h)
    | succ k' =>
      have hia : i + (k' + 1 + 1) = i + k' + 2 := by omega
      rw [hia] at hout hik
      show basisFunction i (k' + 2) t (generateUniformKnots n degree) = 0
      rw [basisFunction_rec_knot n degree hn]
      have hz1 : basisFunction i (k' + 1) t (generateUniformKnots n degree) = 0 := by
        rcases hout with h | h
        · exact ih (by omega) i t (by omega) (Or.inl h)
        · refine ih (by omega) i t (by omega) (Or.inr ?_)
          exact le_trans (knotFun_mono n degree hn (by omega : i + (k' + 1) ≤ i + k' + 2)
            (by omega)) h
      have hz2 : basisFunction (i + 1) (k' + 1) t (generateUniformKnots n degree) = 0 := by
        rcases hout with h | h
        · refine ih (by omega) (i + 1) t (by omega) (Or.inl ?_)
          exact lt_of_lt_of_le h (knotFun_mono n degree hn (by omega : i ≤ i + 1) (by omega))
        · refine ih (by omega) (i + 1) t (by omega) (Or.inr ?_)
          have hidx : i + 1 + (k' + 1) = i + k' + 2 := by omega
          rw [hidx]
          exact h
      rw [hz1, hz2]
      simp

/-- Basis functions over the generated knot vector are nonnegative. -/
theorem basisFunction_nonneg (n degree : ℕ) (hn : degree + 1 ≤ n) :
    ∀ k i (t : ℚ), i + k ≤ n + degree →
      0 ≤ basisFunction i k t (generateUniformKnots n degree) := by
  intro k
  induction k with
  | zero => intro i t _; exact le_refl 0
  | succ k ih =>
    intro i t hik
    cases k with
    | zero =>
      rw [basisFunction_one_knot n degree hn]
      split
      · exact zero_le_one
      · exact le_refl 0
    | succ k' =>
      have hia : i + (k' + 1 + 1) = i + k' + 2 := by omega
      rw [hia] at hik
      show 0 ≤ basisFunction i (k' + 2) t (generateUniformKnots n degree)
      rw [basisFunction_rec_knot n degree hn]
      have hleft : 0 ≤
          (if knotFun n degree (i + k' + 1) ≠ knotFun n degree i then
            ((t - knotFun n degree i) /
                (knotFun n degree (i + k' + 1) - knotFun n degree i)) *
              basisFunction i (k' + 1) t (generateUniformKnots n degree)
          else 0) := by
        split
        · next hne =>
          have hden : 0 < knotFun n degree (i + k' + 1) - knotFun n degree i := by
            rcases lt_or_eq_of_le (knotFun_mono n degree hn
              (by omega : i ≤ i + k' + 1) (by omega)) with h | h
            · exact sub_pos.mpr h
            · exact absurd h.symm hne
          rcases le_or_lt (knotFun n degree i) t with hti | hti
          · exact mul_nonneg (div_nonneg (sub_nonneg.mpr hti) hden.le)
              (ih (i := i) t (by omega))
          · rw [basisFunction_support n degree hn (k' + 1) (by omega) i t (by omega)
              (Or.inl hti), mul_zero]
        · exact le_refl 0
      have hright : 0 ≤
          (if knotFun n degree (i + k' + 2) ≠ knotFun n degree (i + 1) then
            ((knotFun n degree (i + k' + 2) - t) /
                (knotFun n degree (i + k' + 2) - knotFun n degree (i + 1))) *
              basisFunction (i + 1) (k' + 1) t (generateUniformKnots n degree)
          else 0) := by
        split
        · next hne =>
          have hden : 0 < knotFun n degree (i + k' + 2) - knotFun n degree (i + 1) := by
            rcases lt_or_eq_of_le (knotFun_mono n degree hn
              (by omega : i + 1 ≤ i + k' + 2) (by omega)) with h | h
            · exact sub_pos.mpr h
            · exact absurd h.symm hne
          rcases le_or_lt t (knotFun n degree (i + k' + 2)) with hti | hti
          · exact mul_nonneg (div_nonneg (sub_nonneg.mpr hti) hden.le)
              (ih (i := i + 1) t (by omega))
          · have hsupp : basisFunction (i + 1) (k' + 1) t (generateUniformKnots n degree) = 0 := by
              refine basisFunction_support n degree hn (k' + 1) (by omega) (i + 1) t (by omega)
                (Or.inr ?_)
              have hidx : i + 1 + (k' + 1) = i + k' + 2 := by omega
              rw [hidx]
              exact hti.le
            rw [hsupp, mul_zero]
        · exact le_refl 0
      exact add_nonneg hleft hright

/-- Left recursion term of the order-`k+2` Cox-de Boor step over the
generated knot vector, indexed by the basis index (proof device for the
telescoping sum below). -/
def leftTerm (n degree k : ℕ) (t : ℚ) (j : ℕ) : ℚ :=
  if knotFun n degree (j + k + 1) ≠ knotFun n degree j then
    ((t - knotFun n degree j) /
        (knotFun n degree (j + k + 1) - knotFun n degree j)) *
      basisFunction j (k + 1) t (generateUniformKnots n degree)
  else 0

/-- Shifted right recursion term: `rightTerm n degree k t (j+1)` is the
right term of the order-`k+2` Cox-de Boor step at index `j` (proof
device for the telescoping sum below). -/
def rightTerm (n degree k : ℕ) (t : ℚ) (j : ℕ) : ℚ :=
  if knotFun n degree (j + k + 1) ≠ knotFun n degree j then
    ((knotFun n degree (j + k + 1) - t) /
        (knotFun n degree (j + k + 1) - knotFun n degree j)) *
      basisFunction j (k + 1) t (generateUniformKnots n degree)
  else 0

theorem basisFunction_eq_left_add_right (n degree k : ℕ) (hn : degree + 1 ≤ n)
    (t : ℚ) (j : ℕ) :
    basisFunction j (k + 2) t (generateUniformKnots n degree) =
      leftTerm n degree k t j + rightTerm n degree k t (j + 1) := by
  rw [basisFunction_rec_knot n degree hn]
  unfold leftTerm rightTerm
  have hidx : j + 1 + k + 1 = j + k + 2 := by omega
  rw [hidx]

theorem leftTerm_add_rightTerm (n degree k : ℕ) (hn : degree + 1 ≤ n)
    (t : ℚ) (j : ℕ) (hj : j + k + 1 ≤ n + degree) :
    leftTerm n degree k t j + rightTerm n degree k t j =
      basisFunction j (k + 1) t (generateUniformKnots n degree) := by
  unfold leftTerm rightTerm
  by_cases hne : knotFun n degree (j + k + 1) ≠ knotFun n degree j
  · rw [if_pos hne, if_pos hne]
    have hd : knotFun n degree (j + k + 1) - knotFun n degree j ≠ 0 :=
      sub_ne_zero.mpr hne
    field_simp
    ring
  · rw [if_neg hne, if_neg hne, add_zero]
    push_neg at hne
    have hz : basisFunction j (k + 1) t (generateUniformKnots n degree) = 0 := by
      rcases le_or_lt (knotFun n degree j) t with hle | hlt
      · refine basisFunction_support n degree hn (k + 1) (by omega) j t (by omega)
          (Or.inr ?_)
        have hidx : j + (k + 1) = j + k + 1 := by omega
        rw [hidx, hne]
        exact hle
      · exact basisFunction_support n degree hn (k + 1) (by omega) j t (by omega)
          (Or.inl hlt)
    rw [hz]

theorem leftTerm_top (n degree k : ℕ) (hn : degree + 1 ≤ n) (hk : k + 1 ≤ degree)
    (t : ℚ) : leftTerm n degree k t (n + degree - k - 1) = 0 := by
  unfold leftTerm
  have hidx : n + degree - k - 1 + k + 1 = n + degree := by omega
  rw [hidx, if_neg]
  intro hc
  exact hc (by
    rw [knotFun_of_ge n degree (n + degree) hn (by omega) (by omega),
      knotFun_of_ge n degree (n + degree - k - 1) hn (by omega) (by omega)])

theorem rightTerm_bot (n degree k : ℕ) (hn : degree + 1 ≤ n) (hk : k + 1 ≤ degree)
    (t : ℚ) : rightTerm n degree k t 0 = 0 := by
  unfold rightTerm
  rw [if_neg]
  intro hc
  exact hc (by
    rw [knotFun_of_le_degree n degree (0 + k + 1) (by omega),
      knotFun_of_le_degree n degree 0 (by omega)])

/-- Partition of unity at every order of the Cox-de Boor recursion over
the generated clamped knot vector: for `1 ≤ k ≤ degree + 1` and
`0 ≤ t < 1` the order-`k` basis functions sum to `1`. -/
theorem basisFunction_sum (n degree : ℕ) (hn : degree + 1 ≤ n) :
    ∀ k, 1 ≤ k → k ≤ degree + 1 → ∀ t : ℚ, 0 ≤ t → t < 1 →
      ∑ i ∈ Finset.range (n + degree + 1 - k),
        basisFunction i k t (generateUniformKnots n degree) = 1 := by
  intro k
  induction k with
  | zero => intro h; exact absurd h (by omega)
  | succ k ih =>
    intro _ hk t ht0 ht1
    cases k with
    | zero =>
      have hm : n + degree + 1 - 1 = n + degree := by omega
      rw [hm]
      simp only [basisFunction_one_knot n degree hn]
      have hP0 : knotFun n degree 0 ≤ t := by
        rw [knotFun_of_le_degree n degree 0 (by omega)]
        exact ht0
      have hPi0 : knotFun n degree
          (Nat.findGreatest (fun j => knotFun n degree j ≤ t) (n + degree)) ≤ t :=
        @Nat.findGreatest_spec 0 (fun j => knotFun n degree j ≤ t) _ (n + degree)
          (Nat.zero_le _) hP0
      have hi0le : Nat.findGreatest (fun j => knotFun n degree j ≤ t) (n + degree) ≤
          n + degree := Nat.findGreatest_le _
      have hi0n : Nat.findGreatest (fun j => knotFun n degree j ≤ t) (n + degree) < n := by
        by_contra hcon
        push_neg at hcon
        rw [knotFun_of_ge n degree _ hn hcon hi0le] at hPi0
        exact absurd ht1 (not_lt.mpr hPi0)
      have hnext : t < knotFun n degree
          (Nat.findGreatest (fun j => knotFun n degree j ≤ t) (n + degree) + 1) := by
        by_contra hcon
        push_neg at hcon
        exact @Nat.findGreatest_is_greatest
          (Nat.findGreatest (fun j => knotFun n degree j ≤ t) (n + degree) + 1)
          (fun j => knotFun n degree j ≤ t) _ (n + degree)
          (Nat.lt_succ_self _) (by omega) hcon
      rw [Finset.sum_eq_single
          (Nat.findGreatest (fun j => knotFun n degree j ≤ t) (n + degree))]
      · rw [if_pos ⟨hPi0, hnext⟩]
      · intro b hb hbne
        have hb' := Finset.mem_range.mp hb
        rw [if_neg]
        intro hc
        rcases lt_or_gt_of_ne hbne with hlt | hgt
        · have hmono : knotFun n degree (b + 1) ≤ knotFun n degree
              (Nat.findGreatest (fun j => knotFun n degree j ≤ t) (n + degree)) :=
            knotFun_mono n degree hn (by omega) hi0le
          exact absurd (lt_of_lt_of_le hc.2 (le_trans hmono hPi0)) (lt_irrefl t)
        · exact Nat.findGreatest_is_greatest hgt (by omega) hc.1
      · intro habs
        exact absurd (Finset.mem_range.mpr (by omega)) habs
    | succ k' =>
      have hk' : k' + 1 ≤ degree := by omega
      have hm : n + degree + 1 - (k' + 1 + 1) = n + degree - k' - 1 := by omega
      rw [hm]
      set M := n + degree - k' - 1 with hM
      have hrec : ∀ i ∈ Finset.range M,
          basisFunction i (k' + 1 + 1) t (generateUniformKnots n degree) =
            leftTerm n degree k' t i + rightTerm n degree k' t (i + 1) := by
        intro i _
        exact basisFunction_eq_left_add_right n degree k' hn t i
      rw [Finset.sum_congr rfl hrec, Finset.sum_add_distrib]
      have hL : ∑ i ∈ Finset.range (M + 1), leftTerm n degree k' t i =
          (∑ i ∈ Finset.range M, leftTerm n degree k' t i) +
            leftTerm n degree k' t M :=
        Finset.sum_range_succ _ _
      have hR : ∑ i ∈ Finset.range (M + 1), rightTerm n degree k' t i =
          (∑ i ∈ Finset.range M, rightTerm n degree k' t (i + 1)) +
            rightTerm n degree k' t 0 :=
        Finset.sum_range_succ' _ _
      have htop : leftTerm n degree k' t M = 0 := by
        rw [hM]
        exact leftTerm_top n degree k' hn hk' t
      have hbot : rightTerm n degree k' t 0 = 0 :=
        rightTerm_bot n degree k' hn hk' t
      have hiH : ∑ i ∈ Finset.range (M + 1),
          basisFunction i (k' + 1) t (generateUniformKnots n degree) = 1 := by
        have h2 : M + 1 = n + degree + 1 - (k' + 1) := by omega
        rw [h2]
        exact ih (by omega) (by omega) t ht0 ht1
      have hsplit : (∑ i ∈ Finset.range (M + 1), leftTerm n degree k' t i) +
          (∑ i ∈ Finset.range (M + 1), rightTerm n degree k' t i) = 1 := by
        rw [← Finset.sum_add_distrib, ← hiH]
        refine Finset.sum_congr rfl ?_
        intro j hj
        have hj' := Finset.mem_range.mp hj
        exact leftTerm_add_rightTerm n degree k' hn t j (by omega)
      linarith [hL, hR, htop, hbot, hsplit]

/-- C1: partition of unity.  For `n ≥ degree + 1`, the generated knot
vector, and any parameter `t` with `knots[degree] ≤ t < knots[n]`, the
`n` basis functions of order `degree + 1` sum to exactly `1`. -/
theorem basis_partition_of_unity (n d : ℕ) (t : ℚ) (hn : d + 1 ≤ n)
    (h0 : (generateUniformKnots n d).getD d 0 ≤ t)
    (h1 : t < (generateUniformKnots n d).getD n 0) :
    ∑ i ∈ Finset.range n, basisFunction i (d + 1) t (generateUniformKnots n d) = 1 := by
  rw [getD_generateUniformKnots n d hn d, knotFun_of_le_degree n d d (le_refl d)] at h0
  rw [getD_generateUniformKnots n d hn n,
    knotFun_of_ge n d n hn (le_refl n) (by omega)] at h1
  have hs := basisFunction_sum n d hn (d + 1) (by omega) (by omega) t h0 h1
  rw [(by omega : n + d + 1 - (d + 1) = n)] at hs
  exact hs

/-- Witness for C1 at `n = 5`, `degree = 3`, `t = 1/4`. -/
theorem basis_partition_of_unity_witness :
    ∑ i ∈ Finset.range 5,
      basisFunction i (3 + 1) (1 / 4 : ℚ) (generateUniformKnots 5 3) = 1 :=
  basis_partition_of_unity 5 3 (1 / 4) (by norm_num)
    (by rw [getD_generateUniformKnots 5 3 (by norm_num) 3,
          knotFun_of_le_degree 5 3 3 (le_refl 3)]
        norm_num)
    (by rw [getD_generateUniformKnots 5 3 (by norm_num) 5,
          knotFun_of_ge 5 3 5 (by norm_num) (le_refl 5) (by norm_num)]
        norm_num)

/-- C6: at the exact upper domain boundary `t = knots[n]` (which equals
`1`), every basis function of order `degree + 1` with index `i < n`
evaluates to `0`, so their sum is `0` rather than `1`. -/
theorem basis_vanishes_at_upper_knot (n d : ℕ) (hn : d + 1 ≤ n) :
    (∀ i < n, basisFunction i (d + 1) ((generateUniformKnots n d).getD n 0)
        (generateUniformKnots n d) = 0) ∧
    ∑ i ∈ Finset.range n, basisFunction i (d + 1)
        ((generateUniformKnots n d).getD n 0) (generateUniformKnots n d) = 0 := by
  have ht : (generateUniformKnots n d).getD n 0 = 1 := by
    rw [getD_generateUniformKnots n d hn n,
      knotFun_of_ge n d n hn (le_refl n) (by omega)]
  have hall : ∀ i < n, basisFunction i (d + 1) ((generateUniformKnots n d).getD n 0)
      (generateUniformKnots n d) = 0 := by
    intro i hi
    rw [ht]
    exact basisFunction_support n d hn (d + 1) (by omega) i 1 (by omega)
      (Or.inr (knotFun_le_one n d (i + (d + 1)) hn))
  exact ⟨hall, Finset.sum_eq_zero fun i hi => hall i (Finset.mem_range.mp hi)⟩

/-- Witness for C6 at `n = 5`, `degree = 3`. -/
theorem basis_vanishes_at_upper_knot_witness :
    (∀ i < 5, basisFunction i (3 + 1) ((generateUniformKnots 5 3).getD 5 0)
        (generateUniformKnots 5 3) = 0) ∧
    ∑ i ∈ Finset.range 5, basisFunction i (3 + 1)
        ((generateUniformKnots 5 3).getD 5 0) (generateUniformKnots 5 3) = 0 :=
  basis_vanishes_at_upper_knot 5 3 (by norm_num)

/-- C5: shape of the generated knot vector: length `n + degree + 1`,
`degree + 1` zeros, interior entries `(j - degree) / (n - degree)` in
strictly increasing order, `degree + 1` ones, and the concrete example
`generateUniformKnots 5 3 = [0, 0, 0, 0, 1/2, 1, 1, 1, 1]`. -/
theorem generateUniformKnots_spec (n d : ℕ) (hn : d + 1 ≤ n) :
    (generateUniformKnots n d).length = n + d + 1 ∧
    (∀ j, j ≤ d → (generateUniformKnots n d).getD j 0 = 0) ∧
    (∀ j, d < j → j < n →
      (generateUniformKnots n d).getD j 0 = ((j - d : ℕ) : ℚ) / ((n - d : ℕ) : ℚ)) ∧
    (∀ j, d < j → j + 1 < n →
      (generateUniformKnots n d).getD j 0 < (generateUniformKnots n d).getD (j + 1) 0) ∧
    (∀ j, n ≤ j → j ≤ n + d → (generateUniformKnots n d).getD j 0 = 1) ∧
    generateUniformKnots 5 3 = [0, 0, 0, 0, 1 / 2, 1, 1, 1, 1] := by
  refine ⟨length_generateUniformKnots n d hn, ?_, ?_, ?_, ?_, ?_⟩
  · intro j hj
    rw [getD_generateUniformKnots n d hn j, knotFun_of_le_degree n d j hj]
  · intro j h1 h2
    rw [getD_generateUniformKnots n d hn j, knotFun_interior n d j h1 h2]
  · intro j h1 h2
    rw [getD_generateUniformKnots n d hn j, getD_generateUniformKnots n d hn (j + 1),
      knotFun_interior n d j h1 (by omega), knotFun_interior n d (j + 1) (by omega) h2]
    exact div_lt_div_of_pos_right (by exact_mod_cast (by omega : j - d < j + 1 - d))
      (by exact_mod_cast (by omega : 0 < n - d))
  · intro j h1 h2
    rw [getD_generateUniformKnots n d hn j, knotFun_of_ge n d j hn h1 h2]
  · norm_num [generateUniformKnots, List.replicate_succ, List.range_succ]

/-- Witness for C5 at `n = 5`, `degree = 3` (length projection). -/
theorem generateUniformKnots_spec_witness :
    (generateUniformKnots 5 3).length = 5 + 3 + 1 :=
  (generateUniformKnots_spec 5 3 (by norm_num)).1

/-!
Behaviour of the De Casteljau reduction loop at the parameter endpoints
and under weight scaling.
-/

theorem headI_mem_of_ne_nil {l : List Point} (h : l ≠ []) : l.headI ∈ l := by
  cases l with
  | nil => exact absurd rfl h
  | cons p rest => exact List.mem_cons_self _ _

theorem length_lerpStep (t : ℚ) : ∀ l : List Point,
    (lerpStep t l).length = l.length - 1
  | [] => rfl
  | [_] => rfl
  | p :: q :: rest => by
    show (lerpStep t (q :: rest)).length + 1 = _
    rw [length_lerpStep t (q :: rest)]
    simp

theorem lerpStep_zero : ∀ l : List Point, lerpStep 0 l = l.dropLast
  | [] => rfl
  | [_] => rfl
  | p :: q :: rest => by
    show (⟨p.x * (1 - 0) + q.x * 0, p.y * (1 - 0) + q.y * 0,
        p.weight * (1 - 0) + q.weight * 0⟩ : Point) :: lerpStep 0 (q :: rest) =
      (p :: q :: rest).dropLast
    rw [lerpStep_zero (q :: rest), List.dropLast_cons₂]
    congr 1
    cases p
    simp only [Point.mk.injEq]
    refine ⟨by ring, by ring, by ring⟩

theorem lerpStep_one : ∀ l : List Point, lerpStep 1 l = l.tail
  | [] => rfl
  | [_] => rfl
  | p :: q :: rest => by
    show (⟨p.x * (1 - 1) + q.x * 1, p.y * (1 - 1) + q.y * 1,
        p.weight * (1 - 1) + q.weight * 1⟩ : Point) :: lerpStep 1 (q :: rest) =
      (p :: q :: rest).tail
    rw [lerpStep_one (q :: rest)]
    show _ = q :: rest
    rw [List.tail_cons]
    congr 1
    cases q
    simp only [Point.mk.injEq]
    refine ⟨by ring, by ring, by ring⟩

theorem reduceAux_zero : ∀ (fuel : ℕ) (l : List Point), l.length ≤ fuel + 1 →
    reduceAux 0 fuel l = l.take 1 := by
  intro fuel
  induction fuel with
  | zero =>
    intro l hl
    match l, hl with
    | [], _ => rfl
    | [p], _ => rfl
  | succ fuel ih =>
    intro l hl
    match l with
    | [] => rfl
    | [p] => rfl
    | p :: q :: rest =>
      show reduceAux 0 fuel (lerpStep 0 (p :: q :: rest)) = _
      rw [lerpStep_zero (p :: q :: rest), List.dropLast_cons₂,
        ih (p :: (q :: rest).dropLast) (by simp [List.length_dropLast] at hl ⊢; omega)]
      simp

theorem reduceAux_one : ∀ (fuel : ℕ) (l : List Point), l.length ≤ fuel + 1 →
    reduceAux 1 fuel l = l.getLast?.toList := by
  intro fuel
  induction fuel with
  | zero =>
    intro l hl
    match l, hl with
    | [], _ => rfl
    | [p], _ => rfl
  | succ fuel ih =>
    intro l hl
    match l with
    | [] => rfl
    | [p] => rfl
    | p :: q :: rest =>
      show reduceAux 1 fuel (lerpStep 1 (p :: q :: rest)) = _
      rw [lerpStep_one (p :: q :: rest), List.tail_cons,
        ih (q :: rest) (by simp at hl ⊢; omega), List.getLast?_cons_cons]

/-- C2: with every weight equal to `1` and at least two control points,
the De Casteljau evaluation interpolates the endpoints exactly:
`t = 0` returns the first control point and `t = 1` the last one. -/
theorem deCasteljauBezier_endpoints (points : List Point) (h2 : 2 ≤ points.length)
    (hw : ∀ p ∈ points, p.weight = 1) :
    deCasteljauBezier points 0 =
      some ((points.getD 0 default).x, (points.getD 0 default).y) ∧
    deCasteljauBezier points 1 =
      some ((points.getLastD default).x, (points.getLastD default).y) := by
  match points, h2 with
  | p :: q :: rest, _ =>
    have hne : (p :: q :: rest) ≠ [] := by simp
    have hwp : p.weight = 1 := hw p (List.mem_cons_self _ _)
    constructor
    · simp only [deCasteljauBezier]
      rw [if_neg (by simp), if_neg (by simp)]
      rw [reduceAux_zero _ _ (by simp)]
      simp only [List.map_cons, List.take_succ_cons, List.take_zero, List.headI,
        List.getD_cons_zero]
      rw [hwp]
      simp
    · simp only [deCasteljauBezier]
      rw [if_neg (by simp), if_neg (by simp)]
      rw [reduceAux_one _ _ (by simp)]
      have hlast : ((p :: q :: rest).map fun r =>
          { x := r.x * r.weight, y := r.y * r.weight, weight := r.weight : Point }).getLast? =
          some ⟨((p :: q :: rest).getLast hne).x * ((p :: q :: rest).getLast hne).weight,
                ((p :: q :: rest).getLast hne).y * ((p :: q :: rest).getLast hne).weight,
                ((p :: q :: rest).getLast hne).weight⟩ := by
        rw [List.getLast?_map, List.getLast?_eq_getLast _ hne, Option.map_some']
      rw [hlast]
      have hwl : ((p :: q :: rest).getLast hne).weight = 1 :=
        hw _ (List.getLast_mem hne)
      simp only [Option.toList, List.headI]
      rw [hwl, List.getLastD_eq_getLast?, List.getLast?_eq_getLast _ hne, Option.getD_some]
      simp

/-- Witness for C2 on a concrete three-point sequence. -/
theorem deCasteljauBezier_endpoints_witness :
    deCasteljauBezier [⟨1, 2, 1⟩, ⟨3, 4, 1⟩, ⟨5, 6, 1⟩] 0 =
      some ((([⟨1, 2, 1⟩, ⟨3, 4, 1⟩, ⟨5, 6, 1⟩] : List Point).getD 0 default).x,
        (([⟨1, 2, 1⟩, ⟨3, 4, 1⟩, ⟨5, 6, 1⟩] : List Point).getD 0 default).y) ∧
    deCasteljauBezier [⟨1, 2, 1⟩, ⟨3, 4, 1⟩, ⟨5, 6, 1⟩] 1 =
      some ((([⟨1, 2, 1⟩, ⟨3, 4, 1⟩, ⟨5, 6, 1⟩] : List Point).getLastD default).x,
        (([⟨1, 2, 1⟩, ⟨3, 4, 1⟩, ⟨5, 6, 1⟩] : List Point).getLastD default).y) :=
  deCasteljauBezier_endpoints [⟨1, 2, 1⟩, ⟨3, 4, 1⟩, ⟨5, 6, 1⟩] (by norm_num)
    (by intro p hp
        simp only [List.mem_cons, List.not_mem_nil, or_false] at hp
        rcases hp with rfl | rfl | rfl <;> rfl)

/-- C3 counterexample: with two points of different weights the evaluated
point is the rational (weighted) interpolation, not the affine
combination `(1-t)P0 + tP1`.  At `P0 = (0,0,1)`, `P1 = (1,0,2)`,
`t = 1/2` the code returns `(2/3, 0)` while the affine combination is
`(1/2, 0)`. -/
theorem deCasteljauBezier_line_counterexample :
    deCasteljauBezier [⟨0, 0, 1⟩, ⟨1, 0, 2⟩] (1 / 2) ≠
      some ((1 - 1 / 2) * (0 : ℚ) + (1 / 2) * 1,
        (1 - 1 / 2) * (0 : ℚ) + (1 / 2) * 0) := by
  have hval : deCasteljauBezier [⟨0, 0, 1⟩, ⟨1, 0, 2⟩] (1 / 2) = some (2 / 3, 0) := by
    simp only [deCasteljauBezier]
    rw [if_neg (by simp), if_neg (by simp)]
    show (if ((reduceAux (1 / 2) 2
        [(⟨0 * 1, 0 * 1, 1⟩ : Point), ⟨1 * 2, 0 * 2, 2⟩]).headI).weight ≠ 0 then _
      else _) = _
    show (if ((reduceAux (1 / 2) 1
        (lerpStep (1 / 2) [(⟨0 * 1, 0 * 1, 1⟩ : Point), ⟨1 * 2, 0 * 2, 2⟩])).headI).weight ≠ 0
        then _ else _) = _
    simp only [lerpStep, reduceAux, List.headI]
    norm_num
  rw [hval]
  intro hc
  rw [Option.some.injEq, Prod.mk.injEq] at hc
  have := hc.1
  norm_num at this

/-- C3 amended: the two-point De Casteljau evaluation equals the affine
combination `((1-t)x0 + tx1, (1-t)y0 + ty1)` for every `t` when the two
weights are equal and nonzero (for unequal weights the curve is the
rationally reparametrized segment, see the counterexample). -/
theorem deCasteljauBezier_two_points (P0 P1 : Point) (t : ℚ)
    (hw : P0.weight = P1.weight) (h0 : P0.weight ≠ 0) :
    deCasteljauBezier [P0, P1] t =
      some ((1 - t) * P0.x + t * P1.x, (1 - t) * P0.y + t * P1.y) := by
  simp only [deCasteljauBezier]
  rw [if_neg (by simp), if_neg (by simp)]
  simp only [List.map_cons, List.map_nil, List.length_cons, List.length_nil]
  show (if ((reduceAux t 1 (lerpStep t
      [(⟨P0.x * P0.weight, P0.y * P0.weight, P0.weight⟩ : Point),
       ⟨P1.x * P1.weight, P1.y * P1.weight, P1.weight⟩])).headI).weight ≠ 0
      then _ else _) = _
  simp only [lerpStep, reduceAux, List.headI]
  rw [← hw]
  have hwsum : P0.weight * (1 - t) + P0.weight * t = P0.weight := by ring
  rw [hwsum, if_pos h0, Option.some.injEq, Prod.mk.injEq]
  constructor
  · field_simp
    ring
  · field_simp
    ring

/-- Witness for the amended C3 at concrete points and `t = 1/3`. -/
theorem deCasteljauBezier_two_points_witness :
    deCasteljauBezier [⟨2, 5, 3⟩, ⟨8, 1, 3⟩] (1 / 3) =
      some ((1 - 1 / 3) * (2 : ℚ) + (1 / 3) * 8,
        (1 - 1 / 3) * (5 : ℚ) + (1 / 3) * 1) :=
  deCasteljauBezier_two_points ⟨2, 5, 3⟩ ⟨8, 1, 3⟩ (1 / 3) rfl (by norm_num)

/-- The control-point sequence with every weight multiplied by `c` (the
transformation quantified over by the weight-invariance property). -/
def scaleWeights (c : ℚ) (points : List Point) : List Point :=
  points.map fun p => { p with weight := c * p.weight }

/-- Componentwise scaling of a homogeneous point (proof device). -/
def hscale (c : ℚ) (p : Point) : Point := ⟨c * p.x, c * p.y, c * p.weight⟩

theorem lerpStep_hscale (c t : ℚ) : ∀ l : List Point,
    lerpStep t (l.map (hscale c)) = (lerpStep t l).map (hscale c)
  | [] => rfl
  | [_] => rfl
  | p :: q :: rest => by
    have hrec := lerpStep_hscale c t (q :: rest)
    show (⟨c * p.x * (1 - t) + c * q.x * t, c * p.y * (1 - t) + c * q.y * t,
        c * p.weight * (1 - t) + c * q.weight * t⟩ : Point) ::
        lerpStep t ((q :: rest).map (hscale c)) = _
    rw [hrec]
    show _ = (⟨c * (p.x * (1 - t) + q.x * t), c * (p.y * (1 - t) + q.y * t),
        c * (p.weight * (1 - t) + q.weight * t)⟩ : Point) :: _
    congr 1
    simp only [Point.mk.injEq]
    refine ⟨by ring, by ring, by ring⟩

theorem reduceAux_hscale (c t : ℚ) : ∀ (fuel : ℕ) (l : List Point),
    reduceAux t fuel (l.map (hscale c)) = (reduceAux t fuel l).map (hscale c) := by
  intro fuel
  induction fuel with
  | zero => intro l; rfl
  | succ fuel ih =>
    intro l
    match l with
    | [] => rfl
    | [p] => rfl
    | p :: q :: rest =>
      show reduceAux t fuel (lerpStep t ((p :: q :: rest).map (hscale c))) = _
      rw [lerpStep_hscale c t (p :: q :: rest), ih (lerpStep t (p :: q :: rest))]
      rfl

theorem lerpStep_weight_pos (t : ℚ) (ht0 : 0 ≤ t) (ht1 : t ≤ 1) :
    ∀ l : List Point, (∀ p ∈ l, 0 < p.weight) → ∀ r ∈ lerpStep t l, 0 < r.weight
  | [] => by intro _ r hr; simp [lerpStep] at hr
  | [_] => by intro _ r hr; simp [lerpStep] at hr
  | p :: q :: rest => by
    intro hl r hr
    rcases List.mem_cons.mp hr with rfl | hr'
    · have hp := hl p (by simp)
      have hq := hl q (by simp)
      show 0 < p.weight * (1 - t) + q.weight * t
      rcases le_total p.weight q.weight with hle | hle
      · nlinarith
      · nlinarith
    · exact lerpStep_weight_pos t ht0 ht1 (q :: rest)
        (fun s hs => hl s (List.mem_cons_of_mem _ hs)) r hr'

theorem reduceAux_weight_pos (t : ℚ) (ht0 : 0 ≤ t) (ht1 : t ≤ 1) :
    ∀ (fuel : ℕ) (l : List Point), (∀ p ∈ l, 0 < p.weight) →
      ∀ r ∈ reduceAux t fuel l, 0 < r.weight := by
  intro fuel
  induction fuel with
  | zero => intro l hl r hr; exact hl r hr
  | succ fuel ih =>
    intro l hl r hr
    match l with
    | [] => exact hl r hr
    | [p] => exact hl r hr
    | p :: q :: rest =>
      exact ih (lerpStep t (p :: q :: rest))
        (lerpStep_weight_pos t ht0 ht1 (p :: q :: rest) hl) r hr

theorem reduceAux_ne_nil (t : ℚ) : ∀ (fuel : ℕ) (l : List Point), l ≠ [] →
    reduceAux t fuel l ≠ [] := by
  intro fuel
  induction fuel with
  | zero => intro l h; exact h
  | succ fuel ih =>
    intro l h
    match l with
    | [] => exact absurd rfl h
    | [p] => simp [reduceAux]
    | p :: q :: rest =>
      exact ih (lerpStep t (p :: q :: rest)) (by simp [lerpStep])

theorem headI_map_hscale (c : ℚ) (l : List Point) (h : l ≠ []) :
    (l.map (hscale c)).headI = hscale c l.headI := by
  cases l with
  | nil => exact absurd rfl h
  | cons p rest => rfl

/-- Scaling every weight by a nonzero `c` leaves the De Casteljau
evaluation unchanged whenever all weights are positive and `t ∈ [0, 1]`
(the final homogeneous weight is then positive, so both evaluations take
the perspective-division branch and `c` cancels). -/
theorem deCasteljauBezier_scale (points : List Point) (c t : ℚ) (hc : c ≠ 0)
    (hw : ∀ p ∈ points, 0 < p.weight) (ht0 : 0 ≤ t) (ht1 : t ≤ 1) :
    deCasteljauBezier (scaleWeights c points) t = deCasteljauBezier points t := by
  match points with
  | [] => rfl
  | [p] =>
    simp only [deCasteljauBezier, scaleWeights, List.map_cons, List.map_nil]
    rfl
  | p :: q :: rest =>
    have hlift : ((p :: q :: rest).map fun r => { r with weight := c * r.weight }).map
        (fun r => { x := r.x * r.weight, y := r.y * r.weight, weight := r.weight : Point }) =
        ((p :: q :: rest).map
          (fun r => { x := r.x * r.weight, y := r.y * r.weight, weight := r.weight : Point })).map
          (hscale c) := by
      rw [List.map_map, List.map_map]
      congr 1
      funext r
      simp only [Function.comp_apply, hscale, Point.mk.injEq]
      refine ⟨by ring, by ring, by ring⟩
    have hne : ((p :: q :: rest).map
        (fun r => { x := r.x * r.weight, y := r.y * r.weight, weight := r.weight : Point })) ≠
        [] := by simp
    have hwlift : ∀ r ∈ ((p :: q :: rest).map
        (fun r => { x := r.x * r.weight, y := r.y * r.weight, weight := r.weight : Point })),
        0 < r.weight := by
      intro r hr
      rcases List.mem_map.mp hr with ⟨s, hs, rfl⟩
      exact hw s hs
    have hfinpos : 0 < ((reduceAux t (p :: q :: rest).length
        ((p :: q :: rest).map
          (fun r => { x := r.x * r.weight, y := r.y * r.weight, weight := r.weight : Point }))).headI).weight :=
      reduceAux_weight_pos t ht0 ht1 _ _ hwlift _
        (headI_mem_of_ne_nil (reduceAux_ne_nil t _ _ hne))
    simp only [deCasteljauBezier, scaleWeights, List.length_map]
    simp only [if_neg (show ¬((p :: q :: rest).length = 0) by simp),
      if_neg (show ¬((p :: q :: rest).length = 1) by simp)]
    rw [hlift, reduceAux_hscale c t _ _,
      headI_map_hscale c _ (reduceAux_ne_nil t _ _ hne)]
    simp only [hscale]
    rw [if_pos (mul_ne_zero hc hfinpos.ne'), if_pos hfinpos.ne',
      mul_div_mul_left _ _ hc, mul_div_mul_left _ _ hc]

theorem getD_map_point (f : Point → Point) (l : List Point) (i : ℕ) (h : i < l.length) :
    (l.map f).getD i default = f (l.getD i default) := by
  rw [List.getD_eq_getElem _ _ (by simpa using h), List.getD_eq_getElem _ _ h,
    List.getElem_map]

theorem getD_mem_point (l : List Point) (i : ℕ) (h : i < l.length) :
    l.getD i default ∈ l := by
  rw [List.getD_eq_getElem _ _ h]
  exact List.getElem_mem _

/-- Scaling every weight by a nonzero `c` leaves the B-Spline evaluation
with generated knots unchanged whenever all weights are positive: the
accumulated sums all scale by `c`, which cancels in the normalization,
and when the weight sum vanishes (all basis values zero) both raw sums
are zero. -/
theorem bSplinePoint_scale (points : List Point) (c : ℚ) (hc : c ≠ 0)
    (hw : ∀ p ∈ points, 0 < p.weight) (t : ℚ) (degree : ℕ)
    (hlen : degree + 1 ≤ points.length) :
    bSplinePoint (scaleWeights c points) t degree none =
      bSplinePoint points t degree none := by
  have hlenm : (scaleWeights c points).length = points.length := List.length_map _ _
  simp only [bSplinePoint, hlenm, Option.getD_none]
  simp only [if_neg (show ¬(points.length = 0) by omega),
    if_neg (show ¬(points.length < degree + 1) by omega)]
  have heff : ∀ i ∈ Finset.range points.length,
      effectiveWeight ((scaleWeights c points).getD i default) =
        c * effectiveWeight (points.getD i default) := by
    intro i hi
    have hi' := Finset.mem_range.mp hi
    have hwi := hw _ (getD_mem_point points i hi')
    rw [show (scaleWeights c points).getD i default =
        { points.getD i default with weight := c * (points.getD i default).weight }
      from getD_map_point _ points i hi']
    simp only [effectiveWeight]
    rw [if_neg (mul_ne_zero hc hwi.ne'), if_neg hwi.ne']
  have hcoord : ∀ i ∈ Finset.range points.length,
      ((scaleWeights c points).getD i default).x = (points.getD i default).x ∧
      ((scaleWeights c points).getD i default).y = (points.getD i default).y := by
    intro i hi
    have hi' := Finset.mem_range.mp hi
    rw [show (scaleWeights c points).getD i default =
        { points.getD i default with weight := c * (points.getD i default).weight }
      from getD_map_point _ points i hi']
    exact ⟨rfl, rfl⟩
  set knots := generateUniformKnots points.length degree with hknots
  set tc := max (knots.getD degree 0) (min (knots.getD points.length 0) t) with htc
  have hws : ∑ i ∈ Finset.range points.length,
      basisFunction i (degree + 1) tc knots *
        effectiveWeight ((scaleWeights c points).getD i default) =
      c * ∑ i ∈ Finset.range points.length,
        basisFunction i (degree + 1) tc knots *
          effectiveWeight (points.getD i default) := by
    rw [Finset.mul_sum]
    refine Finset.sum_congr rfl ?_
    intro i hi
    rw [heff i hi]
    ring
  have hx : ∑ i ∈ Finset.range points.length,
      ((scaleWeights c points).getD i default).x *
        (basisFunction i (degree + 1) tc knots *
          effectiveWeight ((scaleWeights c points).getD i default)) =
      c * ∑ i ∈ Finset.range points.length,
        (points.getD i default).x *
          (basisFunction i (degree + 1) tc knots *
            effectiveWeight (points.getD i default)) := by
    rw [Finset.mul_sum]
    refine Finset.sum_congr rfl ?_
    intro i hi
    rw [heff i hi, (hcoord i hi).1]
    ring
  have hy : ∑ i ∈ Finset.range points.length,
      ((scaleWeights c points).getD i default).y *
        (basisFunction i (degree + 1) tc knots *
          effectiveWeight ((scaleWeights c points).getD i default)) =
      c * ∑ i ∈ Finset.range points.length,
        (points.getD i default).y *
          (basisFunction i (degree + 1) tc knots *
            effectiveWeight (points.getD i default)) := by
    rw [Finset.mul_sum]
    refine Finset.sum_congr rfl ?_
    intro i hi
    rw [heff i hi, (hcoord i hi).2]
    ring
  rw [hws, hx, hy]
  rcases eq_or_ne (∑ i ∈ Finset.range points.length,
      basisFunction i (degree + 1) tc knots *
        effectiveWeight (points.getD i default)) 0 with hW | hW
  · rw [hW, mul_zero]
    simp only [ne_eq, not_true_eq_false, if_false, ite_false, if_neg (by simp : ¬(0 : ℚ) ≠ 0)]
    have hterm0 : ∀ i ∈ Finset.range points.length,
        basisFunction i (degree + 1) tc knots *
          effectiveWeight (points.getD i default) = 0 := by
      have hnn : ∀ i ∈ Finset.range points.length,
          0 ≤ basisFunction i (degree + 1) tc knots *
            effectiveWeight (points.getD i default) := by
        intro i hi
        have hi' := Finset.mem_range.mp hi
        have hb : 0 ≤ basisFunction i (degree + 1) tc knots := by
          rw [hknots]
          exact basisFunction_nonneg points.length degree hlen (degree + 1) i tc (by omega)
        have hwpos := hw _ (getD_mem_point points i hi')
        have he : 0 < effectiveWeight (points.getD i default) := by
          rw [effectiveWeight, if_neg hwpos.ne']
          exact hwpos
        exact mul_nonneg hb he.le
      exact (Finset.sum_eq_zero_iff_of_nonneg hnn).mp hW
    have hx0 : ∑ i ∈ Finset.range points.length,
        (points.getD i default).x *
          (basisFunction i (degree + 1) tc knots *
            effectiveWeight (points.getD i default)) = 0 := by
      refine Finset.sum_eq_zero ?_
      intro i hi
      rw [hterm0 i hi, mul_zero]
    have hy0 : ∑ i ∈ Finset.range points.length,
        (points.getD i default).y *
          (basisFunction i (degree + 1) tc knots *
            effectiveWeight (points.getD i default)) = 0 := by
      refine Finset.sum_eq_zero ?_
      intro i hi
      rw [hterm0 i hi, mul_zero]
    rw [hx0, hy0, mul_zero]
  · rw [if_pos (mul_ne_zero hc hW), if_pos hW,
      mul_div_mul_left _ _ hc, mul_div_mul_left _ _ hc]

/-- C4 counterexample: weight invariance fails in general.  With the
two-point sequence `[(2,0,1), (0,0,-1)]` at `t = 1/2` the final
homogeneous weight is `0`, so the raw (unnormalized) sums are returned
and scaling every weight by `c = 2` doubles the output: the original
evaluation gives `(1,0)` but the scaled one gives `(2,0)`. -/
theorem weight_scale_counterexample :
    deCasteljauBezier (scaleWeights 2 [⟨2, 0, 1⟩, ⟨0, 0, -1⟩]) (1 / 2) ≠
      deCasteljauBezier [⟨2, 0, 1⟩, ⟨0, 0, -1⟩] (1 / 2) := by
  have hval1 : deCasteljauBezier [⟨2, 0, 1⟩, ⟨0, 0, -1⟩] (1 / 2) = some (1, 0) := by
    simp only [deCasteljauBezier]
    rw [if_neg (by simp), if_neg (by simp)]
    show (if ((reduceAux (1 / 2) 1
        (lerpStep (1 / 2) [(⟨2 * 1, 0 * 1, 1⟩ : Point), ⟨0 * -1, 0 * -1, -1⟩])).headI).weight ≠ 0
        then _ else _) = _
    simp only [lerpStep, reduceAux, List.headI]
    norm_num
  have hval2 : deCasteljauBezier (scaleWeights 2 [⟨2, 0, 1⟩, ⟨0, 0, -1⟩]) (1 / 2) =
      some (2, 0) := by
    show deCasteljauBezier [⟨2, 0, 2 * 1⟩, ⟨0, 0, 2 * -1⟩] (1 / 2) = _
    simp only [deCasteljauBezier]
    rw [if_neg (by simp), if_neg (by simp)]
    show (if ((reduceAux (1 / 2) 1
        (lerpStep (1 / 2) [(⟨2 * (2 * 1), 0 * (2 * 1), 2 * 1⟩ : Point),
          ⟨0 * (2 * -1), 0 * (2 * -1), 2 * -1⟩])).headI).weight ≠ 0
        then _ else _) = _
    simp only [lerpStep, reduceAux, List.headI]
    norm_num
  rw [hval1, hval2]
  intro hc
  rw [Option.some.injEq, Prod.mk.injEq] at hc
  norm_num at hc

/-- C4 amended: weight invariance holds for the configurations the
application can produce: all weights positive (the UI clamps weights to
`[0.1, 3]`), any nonzero scale `c`, and for the Bezier evaluator a
parameter `t ∈ [0, 1]` (outside `[0,1]` the final homogeneous weight can
vanish, reaching the raw-sum branch that is not scale invariant, see the
counterexample). -/
theorem weight_scale_invariance (points : List Point) (c : ℚ) (hc : c ≠ 0)
    (hw : ∀ p ∈ points, 0 < p.weight) :
    (∀ t : ℚ, 0 ≤ t → t ≤ 1 →
      deCasteljauBezier (scaleWeights c points) t = deCasteljauBezier points t) ∧
    ∀ (t : ℚ) (degree : ℕ), degree + 1 ≤ points.length →
      bSplinePoint (scaleWeights c points) t degree none =
        bSplinePoint points t degree none :=
  ⟨fun t ht0 ht1 => deCasteljauBezier_scale points c t hc hw ht0 ht1,
   fun t degree hlen => bSplinePoint_scale points c hc hw t degree hlen⟩

/-- Witness for amended C4 on a four-point sequence with `c = 3`. -/
theorem weight_scale_invariance_witness :
    deCasteljauBezier
        (scaleWeights 3 [⟨0, 0, 1⟩, ⟨1, 2, 2⟩, ⟨3, 1, 1⟩, ⟨4, 0, 1⟩]) (1 / 2) =
      deCasteljauBezier [⟨0, 0, 1⟩, ⟨1, 2, 2⟩, ⟨3, 1, 1⟩, ⟨4, 0, 1⟩] (1 / 2) ∧
    bSplinePoint
        (scaleWeights 3 [⟨0, 0, 1⟩, ⟨1, 2, 2⟩, ⟨3, 1, 1⟩, ⟨4, 0, 1⟩]) (1 / 3) 3 none =
      bSplinePoint [⟨0, 0, 1⟩, ⟨1, 2, 2⟩, ⟨3, 1, 1⟩, ⟨4, 0, 1⟩] (1 / 3) 3 none := by
  have hw : ∀ p ∈ ([⟨0, 0, 1⟩, ⟨1, 2, 2⟩, ⟨3, 1, 1⟩, ⟨4, 0, 1⟩] : List Point),
      0 < p.weight := by
    intro p hp
    simp only [List.mem_cons, List.not_mem_nil, or_false] at hp
    rcases hp with rfl | rfl | rfl | rfl <;> norm_num
  exact ⟨(weight_scale_invariance _ 3 (by norm_num) hw).1 (1 / 2)
      (by norm_num) (by norm_num),
    (weight_scale_invariance _ 3 (by norm_num) hw).2 (1 / 3) 3 (by norm_num)⟩

/-- C9: too-few-points sentinel policy.  The curve generators return the
empty sequence and the point evaluators return `null` on under-sized
inputs; being total Lean functions they throw nothing. -/
theorem sentinel_policy (p : Point) (points : List Point) (degree steps : ℕ)
    (t : ℚ) (knotsOpt : Option (List ℚ)) :
    generateBezierCurve [] steps = [] ∧
    generateBezierCurve [p] steps = [] ∧
    (points.length < degree + 1 →
      generateBSplineCurve points degree steps knotsOpt = []) ∧
    deCasteljauBezier [] t = none ∧
    (points.length < degree + 1 → bSplinePoint points t degree knotsOpt = none) := by
  refine ⟨?_, ?_, ?_, ?_, ?_⟩
  · simp [generateBezierCurve]
  · simp [generateBezierCurve]
  · intro h
    simp only [generateBSplineCurve, if_pos h]
  · rfl
  · intro h
    simp only [bSplinePoint]
    rcases Nat.eq_zero_or_pos points.length with h0 | h0
    · rw [if_pos h0]
    · rw [if_neg (by omega), if_pos h]

/-- Witness for C9 with one control point and requested degree 3. -/
theorem sentinel_policy_witness :
    generateBSplineCurve [⟨1, 1, 1⟩] 3 7 none = [] ∧
    bSplinePoint [⟨1, 1, 1⟩] (1 / 2) 3 none = none :=
  ⟨(sentinel_policy ⟨1, 1, 1⟩ [⟨1, 1, 1⟩] 3 7 (1 / 2) none).2.2.1 (by norm_num),
   (sentinel_policy ⟨1, 1, 1⟩ [⟨1, 1, 1⟩] 3 7 (1 / 2) none).2.2.2.2 (by norm_num)⟩

/-- C10 counterexample: the claim's "zero homogeneous contribution for a
weight-0 point" fails for a one-point sequence, because the one-point
early return of `deCasteljauBezier` bypasses homogeneous lifting and
returns the coordinates unchanged: the output depends on the coordinates
of the weight-0 point. -/
theorem zero_weight_counterexample :
    deCasteljauBezier [⟨5, 5, 0⟩] 0 ≠ deCasteljauBezier [⟨0, 0, 0⟩] 0 := by
  have h1 : deCasteljauBezier [⟨5, 5, 0⟩] 0 = some (5, 5) := by
    simp [deCasteljauBezier]
  have h2 : deCasteljauBezier [⟨0, 0, 0⟩] 0 = some (0, 0) := by
    simp [deCasteljauBezier]
  rw [h1, h2]
  intro hc
  rw [Option.some.injEq, Prod.mk.injEq] at hc
  norm_num at hc

/-- C10 amended: the two evaluators treat a zero weight differently.
The B-Spline evaluator substitutes weight `1` for every weight-0 point
(`weight || 1`), so replacing every zero weight by `1` leaves its result
unchanged; the Bezier evaluator multiplies coordinates by the stored
weight during homogeneous lifting, so on sequences of length at least 2
(where the lifting path runs; a single point is returned unchanged, see
the counterexample) the coordinates of a weight-0 point are irrelevant
to its result. -/
theorem zero_weight_handling (points : List Point) (t : ℚ) (degree : ℕ) :
    bSplinePoint points t degree none =
      bSplinePoint
        (points.map fun p => if p.weight = 0 then { p with weight := 1 } else p)
        t degree none ∧
    (2 ≤ points.length →
      deCasteljauBezier points t =
        deCasteljauBezier
          (points.map fun p =>
            if p.weight = 0 then { x := 0, y := 0, weight := 0 } else p) t) := by
  constructor
  · have hlenm : (points.map fun p =>
        if p.weight = 0 then { p with weight := 1 } else p).length = points.length :=
      List.length_map _ _
    simp only [bSplinePoint, hlenm, Option.getD_none]
    rcases eq_or_ne points.length 0 with h0 | h0
    · rw [if_pos h0, if_pos h0]
    rcases lt_or_le points.length (degree + 1) with hlt | hle
    · simp only [if_neg h0, if_pos hlt]
    simp only [if_neg h0, if_neg (not_lt.mpr hle)]
    have hgetD : ∀ i ∈ Finset.range points.length,
        ((points.map fun p => if p.weight = 0 then { p with weight := 1 } else p).getD
          i default) =
          (if (points.getD i default).weight = 0 then
            { points.getD i default with weight := 1 } else points.getD i default) := by
      intro i hi
      exact getD_map_point _ points i (Finset.mem_range.mp hi)
    have heffq : ∀ i ∈ Finset.range points.length,
        effectiveWeight ((points.map fun p =>
          if p.weight = 0 then { p with weight := 1 } else p).getD i default) =
          effectiveWeight (points.getD i default) := by
      intro i hi
      rw [hgetD i hi]
      by_cases hz : (points.getD i default).weight = 0
      · rw [if_pos hz]
        simp only [effectiveWeight, hz]
        norm_num
      · rw [if_neg hz]
    have hcoords : ∀ i ∈ Finset.range points.length,
        ((points.map fun p =>
          if p.weight = 0 then { p with weight := 1 } else p).getD i default).x =
          (points.getD i default).x ∧
        ((points.map fun p =>
          if p.weight = 0 then { p with weight := 1 } else p).getD i default).y =
          (points.getD i default).y := by
      intro i hi
      rw [hgetD i hi]
      by_cases hz : (points.getD i default).weight = 0
      · rw [if_pos hz]
        exact ⟨rfl, rfl⟩
      · rw [if_neg hz]
        exact ⟨rfl, rfl⟩
    set knots := generateUniformKnots points.length degree with hknots
    set tc := max (knots.getD degree 0) (min (knots.getD points.length 0) t) with htc
    have hws : ∑ i ∈ Finset.range points.length,
        basisFunction i (degree + 1) tc knots *
          effectiveWeight ((points.map fun p =>
            if p.weight = 0 then { p with weight := 1 } else p).getD i default) =
        ∑ i ∈ Finset.range points.length,
          basisFunction i (degree + 1) tc knots *
            effectiveWeight (points.getD i default) := by
      refine Finset.sum_congr rfl ?_
      intro i hi
      rw [heffq i hi]
    have hx : ∑ i ∈ Finset.range points.length,
        ((points.map fun p =>
          if p.weight = 0 then { p with weight := 1 } else p).getD i default).x *
          (basisFunction i (degree + 1) tc knots *
            effectiveWeight ((points.map fun p =>
              if p.weight = 0 then { p with weight := 1 } else p).getD i default)) =
        ∑ i ∈ Finset.range points.length,
          (points.getD i default).x *
            (basisFunction i (degree + 1) tc knots *
              effectiveWeight (points.getD i default)) := by
      refine Finset.sum_congr rfl ?_
      intro i hi
      rw [heffq i hi, (hcoords i hi).1]
    have hy : ∑ i ∈ Finset.range points.length,
        ((points.map fun p =>
          if p.weight = 0 then { p with weight := 1 } else p).getD i default).y *
          (basisFunction i (degree + 1) tc knots *
            effectiveWeight ((points.map fun p =>
              if p.weight = 0 then { p with weight := 1 } else p).getD i default)) =
        ∑ i ∈ Finset.range points.length,
          (points.getD i default).y *
            (basisFunction i (degree + 1) tc knots *
              effectiveWeight (points.getD i default)) := by
      refine Finset.sum_congr rfl ?_
      intro i hi
      rw [heffq i hi, (hcoords i hi).2]
    rw [hws, hx, hy]
  · intro h2
    match points, h2 with
    | p :: q :: rest, _ =>
      have hlift : ((p :: q :: rest).map fun r =>
          if r.weight = 0 then ({ x := 0, y := 0, weight := 0 } : Point) else r).map
          (fun r => { x := r.x * r.weight, y := r.y * r.weight, weight := r.weight : Point }) =
          (p :: q :: rest).map
            (fun r => { x := r.x * r.weight, y := r.y * r.weight, weight := r.weight : Point }) := by
        rw [List.map_map]
        congr 1
        funext r
        by_cases hr : r.weight = 0
        · simp only [Function.comp_apply, if_pos hr, hr, Point.mk.injEq]
          norm_num
        · simp only [Function.comp_apply, if_neg hr]
      simp only [deCasteljauBezier, List.length_map]
      simp only [if_neg (show ¬((p :: q :: rest).length = 0) by simp),
        if_neg (show ¬((p :: q :: rest).length = 1) by simp)]
      rw [hlift]

/-- Witness for amended C10 on a two-point sequence containing a
weight-0 point. -/
theorem zero_weight_handling_witness :
    bSplinePoint [⟨5, 5, 0⟩, ⟨1, 1, 1⟩] (1 / 2) 1 none =
      bSplinePoint
        (([⟨5, 5, 0⟩, ⟨1, 1, 1⟩] : List Point).map fun p =>
          if p.weight = 0 then { p with weight := 1 } else p) (1 / 2) 1 none ∧
    deCasteljauBezier [⟨5, 5, 0⟩, ⟨1, 1, 1⟩] (1 / 2) =
      deCasteljauBezier
        (([⟨5, 5, 0⟩, ⟨1, 1, 1⟩] : List Point).map fun p =>
          if p.weight = 0 then { x := 0, y := 0, weight := 0 } else p) (1 / 2) :=
  ⟨(zero_weight_handling [⟨5, 5, 0⟩, ⟨1, 1, 1⟩] (1 / 2) 1).1,
   (zero_weight_handling [⟨5, 5, 0⟩, ⟨1, 1, 1⟩] (1 / 2) 1).2 (by norm_num)⟩

/-- At the exact upper domain boundary `t = 1` every basis value is zero,
so the accumulated sums and the weight sum are all zero and the
zero-weight-sum branch of `bSplinePoint` returns the raw sums `(0, 0)`. -/
theorem bSplinePoint_at_one (points : List Point) (degree : ℕ)
    (hlen : degree + 1 ≤ points.length) :
    bSplinePoint points 1 degree
      (some (generateUniformKnots points.length degree)) = some (0, 0) := by
  simp only [bSplinePoint, Option.getD_some]
  rw [if_neg (by omega), if_neg (by omega)]
  have htc1 : max ((generateUniformKnots points.length degree).getD degree 0)
      (min ((generateUniformKnots points.length degree).getD points.length 0) 1) = 1 := by
    rw [getD_generateUniformKnots points.length degree hlen degree,
      getD_generateUniformKnots points.length degree hlen points.length,
      knotFun_of_le_degree points.length degree degree (le_refl degree),
      knotFun_of_ge points.length degree points.length hlen (le_refl _) (by omega)]
    norm_num
  rw [htc1]
  have hB0 : ∀ i ∈ Finset.range points.length,
      basisFunction i (degree + 1) 1 (generateUniformKnots points.length degree) = 0 := by
    intro i hi
    have hi' := Finset.mem_range.mp hi
    exact basisFunction_support points.length degree hlen (degree + 1) (by omega) i 1
      (by omega) (Or.inr (knotFun_le_one points.length degree (i + (degree + 1)) hlen))
  have hW : ∑ i ∈ Finset.range points.length,
      basisFunction i (degree + 1) 1 (generateUniformKnots points.length degree) *
        effectiveWeight (points.getD i default) = 0 := by
    refine Finset.sum_eq_zero ?_
    intro i hi
    rw [hB0 i hi, zero_mul]
  have hX : ∑ i ∈ Finset.range points.length,
      (points.getD i default).x *
        (basisFunction i (degree + 1) 1 (generateUniformKnots points.length degree) *
          effectiveWeight (points.getD i default)) = 0 := by
    refine Finset.sum_eq_zero ?_
    intro i hi
    rw [hB0 i hi, zero_mul, mul_zero]
  have hY : ∑ i ∈ Finset.range points.length,
      (points.getD i default).y *
        (basisFunction i (degree + 1) 1 (generateUniformKnots points.length degree) *
          effectiveWeight (points.getD i default)) = 0 := by
    refine Finset.sum_eq_zero ?_
    intro i hi
    rw [hB0 i hi, zero_mul, mul_zero]
  rw [hW, hX, hY]
  norm_num

/-- Every in-domain call of `bSplinePoint` returns a point (never `null`)
once there are at least `degree + 1` control points. -/
theorem bSplinePoint_isSome (points : List Point) (t : ℚ) (degree : ℕ)
    (knotsOpt : Option (List ℚ)) (hlen : degree + 1 ≤ points.length) :
    ∃ pt, bSplinePoint points t degree knotsOpt = some pt := by
  simp only [bSplinePoint]
  rw [if_neg (by omega), if_neg (by omega)]
  split
  · exact ⟨_, rfl⟩
  · exact ⟨_, rfl⟩

/-- C7: with the generated knot vector, `points.length ≥ degree + 1` and
`steps ≥ 1`, the final sample of `generateBSplineCurve` is taken at
`t = knots[n] = 1`, where every basis function vanishes, so the last
curve point is exactly `(0, 0)`; the code does not special-case the
upper domain boundary. -/
theorem generateBSplineCurve_last (points : List Point) (degree steps : ℕ)
    (hlen : degree + 1 ≤ points.length) (hsteps : 1 ≤ steps) :
    (generateBSplineCurve points degree steps none).getLast? = some ((0 : ℚ), (0 : ℚ)) := by
  simp only [generateBSplineCurve, Option.getD_none]
  rw [if_neg (by omega)]
  rw [(by omega : steps + 1 = steps + 1), List.range_succ, List.filterMap_append]
  have harg : (generateUniformKnots points.length degree).getD degree 0 +
      ((steps : ℚ) / (steps : ℚ)) *
        ((generateUniformKnots points.length degree).getD points.length 0 -
          (generateUniformKnots points.length degree).getD degree 0) = 1 := by
    rw [div_self (by exact_mod_cast (by omega : steps ≠ 0) : (steps : ℚ) ≠ 0),
      getD_generateUniformKnots points.length degree hlen degree,
      getD_generateUniformKnots points.length degree hlen points.length,
      knotFun_of_le_degree points.length degree degree (le_refl degree),
      knotFun_of_ge points.length degree points.length hlen (le_refl _) (by omega)]
    ring
  have hlastmap : List.filterMap (fun i : ℕ =>
      bSplinePoint points
        ((generateUniformKnots points.length degree).getD degree 0 +
          ((i : ℚ) / (steps : ℚ)) *
            ((generateUniformKnots points.length degree).getD points.length 0 -
              (generateUniformKnots points.length degree).getD degree 0))
        degree (some (generateUniformKnots points.length degree))) [steps] =
      [((0 : ℚ), (0 : ℚ))] := by
    simp only [List.filterMap_cons, List.filterMap_nil]
    rw [harg, bSplinePoint_at_one points degree hlen]
  rw [hlastmap, List.getLast?_concat]

/-- Witness for C7 on a four-point cubic with two sampling steps. -/
theorem generateBSplineCurve_last_witness :
    (generateBSplineCurve [⟨0, 0, 1⟩, ⟨1, 2, 1⟩, ⟨3, 1, 1⟩, ⟨4, 0, 1⟩] 3 2 none).getLast? =
      some ((0 : ℚ), (0 : ℚ)) :=
  generateBSplineCurve_last [⟨0, 0, 1⟩, ⟨1, 2, 1⟩, ⟨3, 1, 1⟩, ⟨4, 0, 1⟩] 3 2
    (by norm_num) (by norm_num)

/-- C8 (supporting): `generateBezierCurve` takes no special branch for
`steps = 0`: the single sample is evaluated at the literal unguarded
quotient `0 / 0` of the step-size computation `t = i / steps`.  In this
rational model `0 / 0 = 0` by Lean's division convention, but under the
source's IEEE arithmetic `0 / 0` is `NaN`, so the claim's "single point
at `t = 0`, division guarded" does not describe the code. -/
theorem generateBezierCurve_steps_zero (points : List Point)
    (h2 : 2 ≤ points.length) :
    generateBezierCurve points 0 =
      (deCasteljauBezier points ((0 : ℚ) / (0 : ℚ))).toList := by
  simp only [generateBezierCurve]
  rw [if_neg (by omega)]
  rw [(by norm_num : (0 : ℕ) + 1 = 1), List.range_succ, List.range_zero,
    List.nil_append, List.filterMap_cons, List.filterMap_nil]
  rw [show ((0 : ℕ) : ℚ) / ((0 : ℕ) : ℚ) = (0 : ℚ) / (0 : ℚ) by norm_num]
  cases deCasteljauBezier points ((0 : ℚ) / (0 : ℚ)) with
  | none => rfl
  | some pt => rfl

/-- Witness for the C8 supporting theorem on a two-point sequence. -/
theorem generateBezierCurve_steps_zero_witness :
    generateBezierCurve [⟨0, 0, 1⟩, ⟨7, 3, 1⟩] 0 =
      (deCasteljauBezier [⟨0, 0, 1⟩, ⟨7, 3, 1⟩] ((0 : ℚ) / (0 : ℚ))).toList :=
  generateBezierCurve_steps_zero [⟨0, 0, 1⟩, ⟨7, 3, 1⟩] (by norm_num)
